import Mathlib

/-!
# PineAPPL core: shallow embedding and verification

The PineAPPL core (grid/subgrid data model, interpolation-based fill and
convolution, merging, channel deduplication, serialization) is implemented in a
systems language; the repository's Python layer is bindings, tests and glue.
The definitions below model that core from the specification over exact
rational numbers: floating-point values become `ℚ`, callbacks become Lean
functions, fallible operations return `Except`/`Option`.
-/

namespace PineAPPL

/-- Modelled from the spec: the Lagrange basis weight of stencil node `i`
for coordinate `v`, given the stencil node coordinates `xs`
(`ℓ_i(v) = ∏_{j ≠ i} (v - x_j) / (x_i - x_j)`). -/
def lagrangeWeight (xs : List ℚ) (v : ℚ) (i : ℕ) : ℚ :=
  ∏ j ∈ (Finset.range xs.length).erase i,
    (v - xs.getD j 0) / (xs.getD i 0 - xs.getD j 0)

/-- Modelled from the spec: one interpolation axis
`{min, max, n_nodes, poly_degree, node_mapping, reweighting_method}`.  The
node mapping (log-spaced for momentum fractions, a squared mapping for
scales) is transcendental, so the model carries the placed node coordinates
directly as `node_values`; `n_nodes` is its length.  Reweighting cancels
between fill and convolution by design and is modelled as the identity. -/
structure Interp where
  min : ℚ
  max : ℚ
  node_values : List ℚ
  poly_degree : ℕ
  deriving DecidableEq, Repr

/-- Well-formedness of an interpolation axis: nodes strictly increasing
between `min` and `max`, and enough nodes for one stencil. -/
def Interp.Valid (it : Interp) : Prop :=
  it.node_values.Pairwise (· < ·) ∧
  it.poly_degree + 1 ≤ it.node_values.length ∧
  it.node_values.head? = some it.min ∧
  it.node_values.getLast? = some it.max

instance (it : Interp) : Decidable it.Valid := by
  unfold Interp.Valid
  infer_instance

/-- Modelled from the spec: whether a coordinate lies inside the axis's
`[min, max]` interval. -/
def Interp.inRange (it : Interp) (v : ℚ) : Bool :=
  decide (it.min ≤ v) && decide (v ≤ it.max)

/-- Modelled from the spec: the first index of the stencil of
`poly_degree + 1` contiguous nodes nearest `v` (left-closed tie-break,
clamped to the node range). -/
def Interp.stencilStart (it : Interp) (v : ℚ) : ℕ :=
  Nat.min ((it.node_values.filter (fun x => decide (x ≤ v))).length - 1 - it.poly_degree / 2)
    (it.node_values.length - (it.poly_degree + 1))

/-- The stencil node coordinates for `v`. -/
def Interp.stencil (it : Interp) (v : ℚ) : List ℚ :=
  (it.node_values.drop (it.stencilStart v)).take (it.poly_degree + 1)

/-- Modelled from the spec: the `(node index, Lagrange basis weight)` pairs
produced for a coordinate `v`; an out-of-range `v` yields the empty
stencil, so the point contributes nothing. -/
def Interp.weights (it : Interp) (v : ℚ) : List (ℕ × ℚ) :=
  if it.inRange v then
    (List.range (it.stencil v).length).map
      (fun i => (it.stencilStart v + i, lagrangeWeight (it.stencil v) v i))
  else []

/-- Modelled from the spec: a perturbative `Order`, the tuple of non-negative
integer powers `(α_s, α, log(ξ_R), log(ξ_F), log(ξ_A))`. -/
structure Order where
  alphas : ℕ
  alpha : ℕ
  logxir : ℕ
  logxif : ℕ
  logxia : ℕ
  deriving DecidableEq, Repr, Inhabited

/-- Modelled from the spec: one `(parton-id tuple, coefficient)` pair of a
`Channel`. -/
structure ChannelEntry where
  pids : List ℤ
  coeff : ℚ
  deriving DecidableEq, Repr

/-- A `Channel` is a list of `(parton-id tuple, coefficient)` pairs. -/
abbrev Channel := List ChannelEntry

/-- Modelled from the spec: the polarized/time-like flags of one convolution. -/
structure ConvType where
  polarized : Bool
  time_like : Bool
  deriving DecidableEq, Repr

/-- Modelled from the spec: one convolution descriptor (flags plus the PDG id
of the convolved hadron). -/
structure Conv where
  conv_type : ConvType
  pid : ℤ
  deriving DecidableEq, Repr

/-- One sparse subgrid cell: the owning `(order, bin, channel)` triple, the
interpolation-node index tuple (axis 0 is the scale, axis `k+1` the momentum
fraction of convolution `k`), and the accumulated weight.  A grid's subgrid
payload is the multiset of such cells; looking a lattice point up sums every
matching cell, so `fill` appends cells. -/
structure CellEntry where
  order : ℕ
  bin : ℕ
  channel : ℕ
  nodes : List ℕ
  weight : ℚ
  deriving DecidableEq, Repr

/-- Modelled from the spec: the `Grid` aggregate.  It owns the `Order` list,
`Channel` list, the one-dimensional fill-limit bins, the convolution
descriptors, one `Interp` per kinematic coordinate (coordinate 0 the scale,
coordinate `k+1` the momentum fraction of convolution `k`), and the sparse
`(order, bin, channel) → Subgrid` payload.  String metadata and the `Scales`
functional forms (central scale only in this model) are out of the claims'
scope and omitted. -/
structure Grid where
  orders : List Order
  channels : List Channel
  convolutions : List Conv
  interps : List Interp
  fill_limits : List ℚ
  entries : List CellEntry
  deriving DecidableEq, Repr

/-- The number of observable bins of a grid built from fill limits. -/
def Grid.bins (g : Grid) : ℕ := g.fill_limits.length - 1

/-- Modelled from the spec: locate the bin whose `[low, high)` fill-limit
interval contains the observable (left-closed); `none` when the point is
outside all bins. -/
def binIndexFrom : List ℚ → ℚ → Option ℕ
  | lo :: hi :: rest, obs =>
    if lo ≤ obs ∧ obs < hi then some 0
    else (binIndexFrom (hi :: rest) obs).map (· + 1)
  | _, _ => none

/-- The cartesian product of the per-axis stencils: every combination of one
`(node index, basis weight)` per axis, with the basis weights multiplied. -/
def nodeCombos : List (List (ℕ × ℚ)) → List (List ℕ × ℚ)
  | [] => [([], 1)]
  | ws :: rest =>
    ws.flatMap (fun iw => (nodeCombos rest).map (fun c => (iw.1 :: c.1, iw.2 * c.2)))

/-- Modelled from the spec: `fill(order, observable, channel, ntuple, weight)`
locates the bin containing the observable, resolves the interpolation stencil
of every axis, and accumulates `weight · Π axis basis weights` into each
combination of stencil nodes of the `(order, bin, channel)` cell.  A point
outside all bins, or outside any axis's `[min, max]` range (empty stencil),
contributes nothing and raises no error. -/
def Grid.fill (g : Grid) (order : ℕ) (observable : ℚ) (channel : ℕ)
    (ntuple : List ℚ) (weight : ℚ) : Grid :=
  match binIndexFrom g.fill_limits observable with
  | none => g
  | some b =>
    let axes := (g.interps.zip ntuple).map (fun p => p.1.weights p.2)
    { g with
      entries := g.entries ++ (nodeCombos axes).map
        (fun c => { order := order, bin := b, channel := channel,
                    nodes := c.1, weight := weight * c.2 }) }

/-- Modelled from the spec: bulk-fill many points for one (order, channel)
pair, semantically equivalent to repeated `fill` calls. -/
def Grid.fill_array (g : Grid) (order : ℕ) (observables : List ℚ) (channel : ℕ)
    (ntuples : List (List ℚ)) (weights : List ℚ) : Grid :=
  match observables, ntuples, weights with
  | obs :: oRest, nt :: nRest, w :: wRest =>
    Grid.fill_array (g.fill order obs channel nt w) order oRest channel nRest wRest
  | _, _, _ => g

/-- Helper for `fill_all_channels`: fill one point into channel `c`, `c+1`, …
with the per-channel weights. -/
def fillChannelsFrom (order : ℕ) (observable : ℚ) (ntuple : List ℚ) :
    Grid → List ℚ → ℕ → Grid
  | g, [], _ => g
  | g, w :: ws, c =>
    fillChannelsFrom order observable ntuple (g.fill order observable c ntuple w) ws (c + 1)

/-- Modelled from the spec: fill one point replicated across all channels with
per-channel weights, semantically equivalent to repeated `fill` calls. -/
def Grid.fill_all_channels (g : Grid) (order : ℕ) (observable : ℚ)
    (ntuple : List ℚ) (weights : List ℚ) : Grid :=
  fillChannelsFrom order observable ntuple g weights 0

/-- Modelled from the spec (§7 error taxonomy): the fatal per-call errors. -/
inductive GridError where
  /-- The supplied convolution descriptors' polarized/time-like flags do not
  match the grid's recorded convolution metadata; carries the first
  mismatching slot index as context. -/
  | convolutionTypeMismatch (slot : ℕ) : GridError
  /-- Merge precondition violated: the two grids' bin limits are neither
  identical nor exactly consecutive. -/
  | nonConsecutiveBins : GridError
  /-- Merge across grids whose channel/order/convolution/interpolation
  layouts differ. -/
  | convolutionsMismatch : GridError
  deriving DecidableEq, Repr

/-- First slot at which the supplied convolution descriptors' flags disagree
with the grid's recorded ones (also flags a length mismatch); `none` when
they all match. -/
def convTypeCheck : List Conv → List Conv → ℕ → Option ℕ
  | [], [], _ => none
  | c :: cs, d :: ds, i =>
    if c.conv_type = d.conv_type then convTypeCheck cs ds (i + 1) else some i
  | _, _, i => some i

/-- The coordinate of node `idx` on axis `axis` of the grid. -/
def Grid.nodeCoord (g : Grid) (axis : ℕ) (idx : ℕ) : ℚ :=
  ((g.interps.getD axis ⟨0, 0, [], 0⟩).node_values).getD idx 0

/-- One channel term of the convolution integrand:
`coefficient · Π_slots xfx_k(pid_k, x_k, Q2)`, with `x_k` the momentum
fraction read off axis `k + 1` at the cell's lattice node. -/
def Grid.channelTerm (g : Grid) (xfxs : List (ℤ → ℚ → ℚ → ℚ)) (q2 : ℚ)
    (nodes : List ℕ) (ce : ChannelEntry) : ℚ :=
  ce.coeff * ((List.range ce.pids.length).map
    (fun k => (xfxs.getD k (fun _ _ _ => 0)) (ce.pids.getD k 0)
      (g.nodeCoord (k + 1) (nodes.getD (k + 1) 0)) q2)).prod

/-- The luminosity value of one channel at one lattice node:
`Σ_channel_term coefficient · Π xfx`. -/
def Grid.channelValue (g : Grid) (xfxs : List (ℤ → ℚ → ℚ → ℚ)) (q2 : ℚ)
    (nodes : List ℕ) (ch : Channel) : ℚ :=
  (ch.map (g.channelTerm xfxs q2 nodes)).sum

/-- Modelled from the spec: the convolution integrand of one stored cell,
`Σ_channel_term coefficient · Π_slots xfx_k(pid_k, x_k, Q2) · alphas(Q2)^{α_s
power} · weight` evaluated at the cell's lattice node. -/
def Grid.entryValue (g : Grid) (xfxs : List (ℤ → ℚ → ℚ → ℚ)) (alphas : ℚ → ℚ)
    (e : CellEntry) : ℚ :=
  g.channelValue xfxs (g.nodeCoord 0 (e.nodes.getD 0 0)) e.nodes
      (g.channels.getD e.channel []) *
    (alphas (g.nodeCoord 0 (e.nodes.getD 0 0))) ^ (g.orders.getD e.order default).alphas *
    e.weight

/-- Modelled from the spec: the scalar normalization (divisor) of a bin built
from fill limits is its width. -/
def Grid.binNormalization (g : Grid) (b : ℕ) : ℚ :=
  g.fill_limits.getD (b + 1) 0 - g.fill_limits.getD b 0

/-- Modelled from the spec (§4.3 `convolve`): after checking the supplied
convolution descriptors against the grid's metadata, sum the integrand over
all selected (order, bin, channel) cells and lattice nodes, divide by the bin
normalization, and return one value per selected bin.  An empty order mask,
bin-index list, or channel mask selects everything (per the binding's
documented contract).  Evaluated at the central scale `xi = (1, 1)`. -/
def Grid.convolve (g : Grid) (pdg_convs : List Conv)
    (xfxs : List (ℤ → ℚ → ℚ → ℚ)) (alphas : ℚ → ℚ) (order_mask : List Bool)
    (bin_indices : List ℕ) (channel_mask : List Bool) :
    Except GridError (List ℚ) :=
  match convTypeCheck pdg_convs g.convolutions 0 with
  | some i => .error (.convolutionTypeMismatch i)
  | none =>
    let omask := if order_mask.isEmpty then List.replicate g.orders.length true else order_mask
    let cmask := if channel_mask.isEmpty then List.replicate g.channels.length true else channel_mask
    let bs := if bin_indices.isEmpty then List.range g.bins else bin_indices
    .ok (bs.map (fun b =>
      ((g.entries.map (fun e =>
        if e.bin = b && omask.getD e.order false && cmask.getD e.channel false
        then g.entryValue xfxs alphas e else 0)).sum) / g.binNormalization b))

/-- Whether two grids have identical channel/order/convolution/kinematics
(interpolation) layout, the merge precondition. -/
def Grid.layoutEq (g o : Grid) : Bool :=
  decide (g.orders = o.orders) && decide (g.channels = o.channels) &&
  decide (g.convolutions = o.convolutions) && decide (g.interps = o.interps)

/-- Modelled from the spec (§4.3 `merge`): requires identical layout; grids
with identical bin limits are combined bin-wise, grids whose bin limits are
exactly consecutive are concatenated, anything else fails with
`NonConsecutiveBins` and produces no merged grid. -/
def Grid.merge (g o : Grid) : Except GridError Grid :=
  if g.layoutEq o then
    if g.fill_limits = o.fill_limits then
      .ok { g with entries := g.entries ++ o.entries }
    else if g.fill_limits.getLast? = o.fill_limits.head? then
      .ok { g with
        fill_limits := g.fill_limits ++ o.fill_limits.tail,
        entries := g.entries ++
          o.entries.map (fun e => { e with bin := e.bin + g.bins }) }
    else .error .nonConsecutiveBins
  else .error .convolutionsMismatch

/-- Checks that `c2`'s coefficients are `k` times `c1`'s, entry by entry,
with identical parton-id tuples. -/
def channelRatioCheck : Channel → Channel → ℚ → Bool
  | [], [], _ => true
  | e1 :: r1, e2 :: r2, k =>
    decide (e1.pids = e2.pids) && decide (e2.coeff = k * e1.coeff) &&
    channelRatioCheck r1 r2 k
  | _, _, _ => false

/-- Modelled from the spec: two channels are duplicates when their
coefficient-normalized parton-id sets match, i.e. `c2 = k · c1` for some
factor `k`; returns that factor. -/
def channelFactor (c1 c2 : Channel) : Option ℚ :=
  match c1, c2 with
  | e1 :: _, e2 :: _ =>
    if e1.coeff = 0 then none
    else if channelRatioCheck c1 c2 (e2.coeff / e1.coeff) then
      some (e2.coeff / e1.coeff)
    else none
  | _, _ => none

/-- Position of the first kept channel that `ch` duplicates, with the factor. -/
def findDup : List Channel → Channel → Option (ℕ × ℚ)
  | [], _ => none
  | c :: cs, ch =>
    match channelFactor c ch with
    | some k => some (0, k)
    | none => (findDup cs ch).map (fun p => (p.1 + 1, p.2))

/-- Left-to-right deduplication pass: returns the kept channels and, for each
processed channel, the kept index it was assigned to and the coefficient
factor relating them. -/
def dedupAssign (kept : List Channel) : List Channel → List Channel × List (ℕ × ℚ)
  | [] => (kept, [])
  | ch :: rest =>
    match findDup kept ch with
    | some ik =>
      let r := dedupAssign kept rest
      (r.1, ik :: r.2)
    | none =>
      let r := dedupAssign (kept ++ [ch]) rest
      (r.1, (kept.length, 1) :: r.2)

/-- Modelled from the spec: `dedup_channels(tolerance)` merges channels whose
coefficient-normalized parton-id sets match within the tolerance, summing
their subgrid contents (scaled by the coefficient factor).  Over exact
rationals the floating-point ULP tolerance degenerates to exact equality, so
the `ulps` argument does not influence the comparison. -/
def Grid.dedup_channels (g : Grid) (ulps : ℕ) : Grid :=
  let r := dedupAssign [] g.channels
  { g with
    channels := r.1,
    entries := g.entries.map (fun e =>
      let a := r.2.getD e.channel (0, 1)
      { e with channel := a.1, weight := a.2 * e.weight }) }

/-- `c2` is `c1` scaled by the factor `k`: identical parton-id tuples,
coefficients multiplied by `k`, entry by entry. -/
def ChannelScaled (k : ℚ) (c1 c2 : Channel) : Prop :=
  List.Forall₂ (fun e1 e2 => e2.pids = e1.pids ∧ e2.coeff = k * e1.coeff) c1 c2

/-! ## Persistence

Modelled from the spec (§6): the persisted grid format is a versioned
container holding the format version, `Order` list, `Channel` list, bins,
interpolation specs and the sparse subgrid map.  The byte stream is modelled
as a stream of rational tokens; `write` serializes every component behind a
version tag and `read` parses it back, rejecting unknown versions or trailing
garbage. -/

/-- Encode a natural number as one token. -/
def encNat (n : ℕ) : List ℚ := [(n : ℚ)]

/-- Decode a natural number token. -/
def decNat : List ℚ → Option (ℕ × List ℚ)
  | [] => none
  | q :: r => if q.den = 1 ∧ 0 ≤ q.num then some (q.num.toNat, r) else none

/-- Encode an integer as one token. -/
def encInt (z : ℤ) : List ℚ := [(z : ℚ)]

/-- Decode an integer token. -/
def decInt : List ℚ → Option (ℤ × List ℚ)
  | [] => none
  | q :: r => if q.den = 1 then some (q.num, r) else none

/-- Encode a rational as one token. -/
def encRat (q : ℚ) : List ℚ := [q]

/-- Decode a rational token. -/
def decRat : List ℚ → Option (ℚ × List ℚ)
  | [] => none
  | q :: r => some (q, r)

/-- Encode a boolean flag as one token. -/
def encBool (b : Bool) : List ℚ := [if b then 1 else 0]

/-- Decode a boolean token. -/
def decBool : List ℚ → Option (Bool × List ℚ)
  | [] => none
  | q :: r => if q = 1 then some (true, r) else if q = 0 then some (false, r) else none

/-- Encode a list as a length token followed by the encoded elements. -/
def encListWith {α : Type} (enc : α → List ℚ) (xs : List α) : List ℚ :=
  encNat xs.length ++ xs.foldr (fun a acc => enc a ++ acc) []

/-- Decode exactly `n` consecutive elements. -/
def decCount {α : Type} (dec : List ℚ → Option (α × List ℚ)) :
    ℕ → List ℚ → Option (List α × List ℚ)
  | 0, r => some ([], r)
  | n + 1, r =>
    (dec r).bind fun p => (decCount dec n p.2).map fun ps => (p.1 :: ps.1, ps.2)

/-- Decode a length-prefixed list. -/
def decListWith {α : Type} (dec : List ℚ → Option (α × List ℚ))
    (r : List ℚ) : Option (List α × List ℚ) :=
  (decNat r).bind fun p => decCount dec p.1 p.2

/-- Encode one perturbative order. -/
def encOrder (o : Order) : List ℚ :=
  encNat o.alphas ++ encNat o.alpha ++ encNat o.logxir ++ encNat o.logxif ++ encNat o.logxia

/-- Decode one perturbative order. -/
def decOrder (r : List ℚ) : Option (Order × List ℚ) :=
  (decNat r).bind fun p1 =>
  (decNat p1.2).bind fun p2 =>
  (decNat p2.2).bind fun p3 =>
  (decNat p3.2).bind fun p4 =>
  (decNat p4.2).map fun p5 =>
  (⟨p1.1, p2.1, p3.1, p4.1, p5.1⟩, p5.2)

/-- Encode one channel entry. -/
def encCE (ce : ChannelEntry) : List ℚ :=
  encListWith encInt ce.pids ++ encRat ce.coeff

/-- Decode one channel entry. -/
def decCE (r : List ℚ) : Option (ChannelEntry × List ℚ) :=
  (decListWith decInt r).bind fun p1 =>
  (decRat p1.2).map fun p2 =>
  (⟨p1.1, p2.1⟩, p2.2)

/-- Encode one channel. -/
def encChannel (c : Channel) : List ℚ := encListWith encCE c

/-- Decode one channel. -/
def decChannel (r : List ℚ) : Option (Channel × List ℚ) := decListWith decCE r

/-- Encode one convolution descriptor. -/
def encConv (c : Conv) : List ℚ :=
  encBool c.conv_type.polarized ++ encBool c.conv_type.time_like ++ encInt c.pid

/-- Decode one convolution descriptor. -/
def decConv (r : List ℚ) : Option (Conv × List ℚ) :=
  (decBool r).bind fun p1 =>
  (decBool p1.2).bind fun p2 =>
  (decInt p2.2).map fun p3 =>
  (⟨⟨p1.1, p2.1⟩, p3.1⟩, p3.2)

/-- Encode one interpolation axis spec. -/
def encInterp (it : Interp) : List ℚ :=
  encRat it.min ++ encRat it.max ++ encListWith encRat it.node_values ++ encNat it.poly_degree

/-- Decode one interpolation axis spec. -/
def decInterp (r : List ℚ) : Option (Interp × List ℚ) :=
  (decRat r).bind fun p1 =>
  (decRat p1.2).bind fun p2 =>
  (decListWith decRat p2.2).bind fun p3 =>
  (decNat p3.2).map fun p4 =>
  (⟨p1.1, p2.1, p3.1, p4.1⟩, p4.2)

/-- Encode one subgrid cell. -/
def encCell (e : CellEntry) : List ℚ :=
  encNat e.order ++ encNat e.bin ++ encNat e.channel ++
  encListWith encNat e.nodes ++ encRat e.weight

/-- Decode one subgrid cell. -/
def decCell (r : List ℚ) : Option (CellEntry × List ℚ) :=
  (decNat r).bind fun p1 =>
  (decNat p1.2).bind fun p2 =>
  (decNat p2.2).bind fun p3 =>
  (decListWith decNat p3.2).bind fun p4 =>
  (decRat p4.2).map fun p5 =>
  (⟨p1.1, p2.1, p3.1, p4.1, p5.1⟩, p5.2)

/-- The persisted format version of this model. -/
def formatVersion : ℕ := 1

/-- Modelled from the spec: `write` serializes the whole grid atomically into
a versioned token stream. -/
def Grid.write (g : Grid) : List ℚ :=
  encNat formatVersion ++ encListWith encOrder g.orders ++
  encListWith encChannel g.channels ++ encListWith encConv g.convolutions ++
  encListWith encInterp g.interps ++ encListWith encRat g.fill_limits ++
  encListWith encCell g.entries

/-- Modelled from the spec: `read` deserializes a whole grid, rejecting an
unknown format version or trailing data. -/
def Grid.read (r : List ℚ) : Option Grid :=
  (decNat r).bind fun v =>
  if v.1 = formatVersion then
    (decListWith decOrder v.2).bind fun p1 =>
    (decListWith decChannel p1.2).bind fun p2 =>
    (decListWith decConv p2.2).bind fun p3 =>
    (decListWith decInterp p3.2).bind fun p4 =>
    (decListWith decRat p4.2).bind fun p5 =>
    (decListWith decCell p5.2).bind fun p6 =>
    if p6.2 = [] then some ⟨p1.1, p2.1, p3.1, p4.1, p5.1, p6.1⟩ else none
  else none

/-! ## Concrete fixtures

Small concrete objects, mirroring the repository's test fixtures, used to
instantiate the verified statements on closed inputs. -/

/-- A small valid interpolation axis. -/
def witInterp : Interp := ⟨0, 3, [0, 1, 2, 3], 1⟩

/-- An unpolarized space-like proton convolution descriptor. -/
def witConv : Conv := ⟨⟨false, false⟩, 2212⟩

/-- A polarized space-like proton convolution descriptor. -/
def witPolConv : Conv := ⟨⟨true, false⟩, 2212⟩

/-- An up–antiup test channel with unit coefficient. -/
def witChannel : Channel := [⟨[2, -2], 1⟩]

/-- A small two-bin grid with two convolutions, one order and one channel. -/
def witGrid : Grid :=
  ⟨[⟨3, 0, 0, 0, 0⟩], [witChannel], [witConv, witConv],
   [witInterp, witInterp, witInterp], [0, 1, 2], []⟩

/-- `witGrid` with fill limits `[1, 2, 3]`. -/
def witGridL : Grid := { witGrid with fill_limits := [1, 2, 3] }

/-- `witGrid` with fill limits `[3, 4, 5]` (consecutive with `witGridL`). -/
def witGridR : Grid := { witGrid with fill_limits := [3, 4, 5] }

/-- `witGrid` with fill limits `[4, 5, 6]` (gap after `witGridL`). -/
def witGridG : Grid := { witGrid with fill_limits := [4, 5, 6] }

/-- `witGrid` with a duplicated channel and two stored cells. -/
def witGridDup : Grid :=
  { witGrid with
    channels := [witChannel, witChannel],
    entries := [⟨0, 0, 0, [0, 0, 0], 5⟩, ⟨0, 0, 1, [1, 1, 1], 7⟩] }

/-- The spec's toy scenario grid: one order `(0, 2, 0, 0, 0)`, one
single-entry channel `[([22, 22], 1.0)]`, two-convolution kinematics. -/
def toyGrid (i0 i1 i2 : Interp) (cv1 cv2 : Conv) (fl : List ℚ) : Grid :=
  ⟨[⟨0, 2, 0, 0, 0⟩], [[⟨[22, 22], 1⟩]], [cv1, cv2], [i0, i1, i2], fl, []⟩

/-- The constant PDF callback `xfx(pid, x, Q2) = 1`. -/
def unitXfx : ℤ → ℚ → ℚ → ℚ := fun _ _ _ => 1

/-- The constant coupling callback `alphas(Q2) = 1`. -/
def unitAlphas : ℚ → ℚ := fun _ => 1

/-! ## Interpolation theorems -/

/-- Sum over a `List.range` equals the `Finset.range` sum. -/
theorem list_range_map_sum (n : ℕ) (f : ℕ → ℚ) :
    ((List.range n).map f).sum = ∑ i ∈ Finset.range n, f i := by
  induction n with
  | zero => simp
  | succ n ih =>
    rw [List.range_succ, List.map_append, List.sum_append, Finset.sum_range_succ, ih]
    simp

/-- On a strictly sorted list, `getD` is injective on the index range. -/
theorem getD_injOn_of_sorted (xs : List ℚ) (hxs : xs.Pairwise (· < ·)) :
    Set.InjOn (fun i => xs.getD i 0) (Finset.range xs.length : Finset ℕ) := by
  intro i hi j hj hij
  simp only [Finset.coe_range, Set.mem_Iio] at hi hj
  by_contra hne
  have key : ∀ a b : ℕ, a < xs.length → b < xs.length → a < b →
      xs.getD a 0 < xs.getD b 0 := by
    intro a b ha hb hab
    have := List.pairwise_iff_getElem.mp hxs a b ha hb hab
    rwa [List.getD_eq_getElem _ _ ha, List.getD_eq_getElem _ _ hb]
  rcases Nat.lt_or_ge i j with h | h
  · exact absurd hij (ne_of_lt (key i j hi hj h))
  · rcases Nat.lt_or_ge j i with h' | h'
    · exact absurd hij (ne_of_gt (key j i hj hi h'))
    · exact hne (Nat.le_antisymm h' h)

/-- Partition of unity for the Lagrange basis: over pairwise-distinct
(strictly sorted) stencil nodes, the basis weights at any `v` sum to `1`. -/
theorem sum_lagrangeWeight_eq_one (xs : List ℚ) (hxs : xs.Pairwise (· < ·))
    (hne : xs ≠ []) (v : ℚ) :
    ∑ i ∈ Finset.range xs.length, lagrangeWeight xs v i = 1 := by
  classical
  have hinj : Set.InjOn (fun i => xs.getD i 0) (Finset.range xs.length : Finset ℕ) :=
    getD_injOn_of_sorted xs hxs
  have hnonempty : (Finset.range xs.length).Nonempty :=
    ⟨0, Finset.mem_range.mpr (List.length_pos.mpr hne)⟩
  have hsum := Lagrange.sum_basis hinj hnonempty
  have heval := congrArg (Polynomial.eval v) hsum
  rw [Polynomial.eval_finset_sum, Polynomial.eval_one] at heval
  rw [← heval]
  apply Finset.sum_congr rfl
  intro i _
  rw [lagrangeWeight, Lagrange.basis, Polynomial.eval_prod]
  apply Finset.prod_congr rfl
  intro j _
  simp [Lagrange.basisDivisor, div_eq_inv_mul]

/-- The stencil is a sublist of the axis nodes. -/
theorem stencil_sublist (it : Interp) (v : ℚ) :
    (it.stencil v).Sublist it.node_values :=
  (List.take_sublist _ _).trans (List.drop_sublist _ _)

/-- A valid axis's stencil has exactly `poly_degree + 1` nodes. -/
theorem stencil_length (it : Interp) (hit : it.Valid) (v : ℚ) :
    (it.stencil v).length = it.poly_degree + 1 := by
  rcases hit with ⟨-, hlen, -, -⟩
  rw [Interp.stencil, List.length_take, List.length_drop]
  have hs : it.stencilStart v ≤ it.node_values.length - (it.poly_degree + 1) :=
    Nat.min_le_right _ _
  omega

/-- The basis weights of a valid axis sum to one at every in-range `v`. -/
theorem sum_weights_eq_one (it : Interp) (hit : it.Valid) (v : ℚ)
    (hv : it.inRange v = true) :
    ((it.weights v).map Prod.snd).sum = 1 := by
  have hsorted : (it.stencil v).Pairwise (· < ·) :=
    hit.1.sublist (stencil_sublist it v)
  have hne : it.stencil v ≠ [] := by
    have := stencil_length it hit v
    intro h
    rw [h] at this
    simp at this
  rw [Interp.weights, if_pos hv, List.map_map]
  have : (Prod.snd ∘ fun i => (it.stencilStart v + i, lagrangeWeight (it.stencil v) v i)) =
      fun i => lagrangeWeight (it.stencil v) v i := rfl
  rw [this, list_range_map_sum]
  exact sum_lagrangeWeight_eq_one (it.stencil v) hsorted hne v

/-! ## Serialization theorems -/

theorem decNat_encNat (n : ℕ) (r : List ℚ) : decNat (encNat n ++ r) = some (n, r) := by
  simp [decNat, encNat]

theorem decInt_encInt (z : ℤ) (r : List ℚ) : decInt (encInt z ++ r) = some (z, r) := by
  simp [decInt, encInt]

theorem decRat_encRat (q : ℚ) (r : List ℚ) : decRat (encRat q ++ r) = some (q, r) := rfl

theorem decBool_encBool (b : Bool) (r : List ℚ) : decBool (encBool b ++ r) = some (b, r) := by
  cases b <;> simp [decBool, encBool]

theorem decCount_round {α : Type} (enc : α → List ℚ)
    (dec : List ℚ → Option (α × List ℚ))
    (h : ∀ a r, dec (enc a ++ r) = some (a, r)) :
    ∀ (xs : List α) (r : List ℚ),
      decCount dec xs.length (xs.foldr (fun a acc => enc a ++ acc) [] ++ r) =
        some (xs, r) := by
  intro xs
  induction xs with
  | nil => intro r; simp [decCount]
  | cons a as ih =>
    intro r
    simp only [List.foldr_cons, List.length_cons, List.append_assoc, decCount]
    rw [h a _, Option.some_bind, ih r]
    rfl

theorem decListWith_round {α : Type} (enc : α → List ℚ)
    (dec : List ℚ → Option (α × List ℚ))
    (h : ∀ a r, dec (enc a ++ r) = some (a, r)) (xs : List α) (r : List ℚ) :
    decListWith dec (encListWith enc xs ++ r) = some (xs, r) := by
  simp only [decListWith, encListWith, List.append_assoc, decNat_encNat,
    Option.some_bind]
  exact decCount_round enc dec h xs r

theorem decOrder_encOrder (o : Order) (r : List ℚ) :
    decOrder (encOrder o ++ r) = some (o, r) := by
  simp [decOrder, encOrder, List.append_assoc, decNat_encNat]

theorem decCE_encCE (ce : ChannelEntry) (r : List ℚ) :
    decCE (encCE ce ++ r) = some (ce, r) := by
  simp [decCE, encCE, List.append_assoc, decListWith_round encInt decInt decInt_encInt,
    decRat_encRat]

theorem decChannel_encChannel (c : Channel) (r : List ℚ) :
    decChannel (encChannel c ++ r) = some (c, r) :=
  decListWith_round encCE decCE decCE_encCE c r

theorem decConv_encConv (c : Conv) (r : List ℚ) :
    decConv (encConv c ++ r) = some (c, r) := by
  simp [decConv, encConv, List.append_assoc, decBool_encBool, decInt_encInt]

theorem decInterp_encInterp (it : Interp) (r : List ℚ) :
    decInterp (encInterp it ++ r) = some (it, r) := by
  simp [decInterp, encInterp, List.append_assoc, decRat_encRat,
    decListWith_round encRat decRat decRat_encRat, decNat_encNat]

theorem decCell_encCell (e : CellEntry) (r : List ℚ) :
    decCell (encCell e ++ r) = some (e, r) := by
  simp [decCell, encCell, List.append_assoc, decNat_encNat,
    decListWith_round encNat decNat decNat_encNat, decRat_encRat]

/-- Round trip: reading a written grid returns it unchanged. -/
theorem read_write (g : Grid) : Grid.read (Grid.write g) = some g := by
  have h := decNat_encNat formatVersion (encListWith encOrder g.orders ++
    encListWith encChannel g.channels ++ encListWith encConv g.convolutions ++
    encListWith encInterp g.interps ++ encListWith encRat g.fill_limits ++
    encListWith encCell g.entries)
  rw [Grid.read, Grid.write]
  simp only [List.append_assoc] at h ⊢
  rw [h, Option.some_bind, if_pos rfl,
    decListWith_round encOrder decOrder decOrder_encOrder, Option.some_bind,
    decListWith_round encChannel decChannel decChannel_encChannel, Option.some_bind,
    decListWith_round encConv decConv decConv_encConv, Option.some_bind,
    decListWith_round encInterp decInterp decInterp_encInterp, Option.some_bind,
    decListWith_round encRat decRat decRat_encRat, Option.some_bind]
  have hlast : encListWith encCell g.entries = encListWith encCell g.entries ++ [] :=
    (List.append_nil _).symm
  rw [hlast, decListWith_round encCell decCell decCell_encCell, Option.some_bind,
    if_pos rfl]

/-! ## Convolution and fill helper lemmas -/

/-- A grid's own convolution metadata always passes the type check. -/
theorem convTypeCheck_self (cs : List Conv) : ∀ n, convTypeCheck cs cs n = none := by
  induction cs with
  | nil => intro n; rfl
  | cons c cs ih => intro n; simp [convTypeCheck, ih]

/-- A flag mismatch at some common slot makes the type check report a slot. -/
theorem convTypeCheck_isSome_of_mismatch (d : Conv) :
    ∀ (cs ds : List Conv) (n i : ℕ), i < cs.length → i < ds.length →
      (cs.getD i d).conv_type ≠ (ds.getD i d).conv_type →
      (convTypeCheck cs ds n).isSome = true := by
  intro cs
  induction cs with
  | nil => intro ds n i hi _ _; exact absurd hi (Nat.not_lt_zero i)
  | cons c cs ih =>
    intro ds n i _ hd hne
    cases ds with
    | nil => exact absurd hd (Nat.not_lt_zero i)
    | cons d' ds =>
      cases i with
      | zero =>
        simp only [List.getD_cons_zero] at hne
        simp [convTypeCheck, if_neg hne]
      | succ i =>
        simp only [List.getD_cons_succ] at hne
        by_cases h : c.conv_type = d'.conv_type
        · simp only [convTypeCheck, if_pos h]
          exact ih ds (n + 1) i (by simpa using Nat.lt_of_succ_lt_succ ‹i + 1 < (c :: cs).length›)
            (Nat.lt_of_succ_lt_succ hd) hne
        · simp [convTypeCheck, if_neg h]

/-- Multiplying every summand on the left scales the sum. -/
theorem sum_map_mul_left {α : Type} (l : List α) (f : α → ℚ) (a : ℚ) :
    (l.map fun x => a * f x).sum = a * (l.map f).sum := by
  induction l with
  | nil => simp
  | cons x xs ih => simp [ih]; ring

/-- Distributing one axis's stencil over the remaining combinations
multiplies the weight sums. -/
theorem flatMap_scale_sum (ws : List (ℕ × ℚ)) (cs : List (List ℕ × ℚ)) :
    ((ws.flatMap (fun iw => cs.map (fun c => (iw.1 :: c.1, iw.2 * c.2)))).map
      Prod.snd).sum = (ws.map Prod.snd).sum * (cs.map Prod.snd).sum := by
  induction ws with
  | nil => simp
  | cons iw ws' ih =>
    simp only [List.flatMap_cons, List.map_append, List.sum_append, ih,
      List.map_map, List.map_cons, List.sum_cons]
    have : ((cs.map fun c => (iw.1 :: c.1, iw.2 * c.2)).map Prod.snd).sum =
        iw.2 * (cs.map Prod.snd).sum := by
      rw [List.map_map]
      exact sum_map_mul_left cs (fun c => c.2) iw.2
    rw [List.map_map] at this
    rw [this]
    ring

/-- The total weight of all node combinations is the product of the per-axis
weight sums. -/
theorem nodeCombos_snd_sum (ls : List (List (ℕ × ℚ))) :
    ((nodeCombos ls).map Prod.snd).sum =
      (ls.map (fun ws => (ws.map Prod.snd).sum)).prod := by
  induction ls with
  | nil => simp [nodeCombos]
  | cons ws rest ih =>
    simp only [nodeCombos, List.map_cons, List.prod_cons]
    rw [flatMap_scale_sum, ih]

/-- An empty axis stencil kills every combination. -/
theorem nodeCombos_of_mem_nil (ls : List (List (ℕ × ℚ))) (h : [] ∈ ls) :
    nodeCombos ls = [] := by
  induction ls with
  | nil => cases h
  | cons ws rest ih =>
    rcases List.mem_cons.mp h with h | h
    · rw [nodeCombos, ← h]
      rfl
    · rw [nodeCombos, ih h]
      simp

/-- A strictly sorted list with at least two elements has a head strictly
below its last element. -/
theorem exists_head_lt_getLast (l : List ℚ) (hs : l.Pairwise (· < ·))
    (hl : 2 ≤ l.length) :
    ∃ a b, l.head? = some a ∧ l.getLast? = some b ∧ a < b := by
  cases l with
  | nil => simp at hl
  | cons x rest =>
    cases rest with
    | nil => simp at hl
    | cons y t =>
      refine ⟨x, (y :: t).getLast (by simp), rfl, ?_, ?_⟩
      · rw [List.getLast?_eq_getLast (x :: y :: t) (by simp),
          List.getLast_cons (by simp : y :: t ≠ [])]
      · exact (List.pairwise_cons.mp hs).1 _ (List.getLast_mem _)

/-- `fill_array` is the left fold of single `fill` calls over the zipped
point data. -/
theorem fill_array_eq_foldl (o c : ℕ) :
    ∀ (obs : List ℚ) (g : Grid) (nts : List (List ℚ)) (ws : List ℚ),
      g.fill_array o obs c nts ws =
        (obs.zip (nts.zip ws)).foldl (fun gg t => gg.fill o t.1 c t.2.1 t.2.2) g := by
  intro obs
  induction obs with
  | nil => intro g nts ws; cases nts <;> cases ws <;> rfl
  | cons ob oRest ih =>
    intro g nts ws
    cases nts with
    | nil => rfl
    | cons nt nRest =>
      cases ws with
      | nil => rfl
      | cons w wRest =>
        rw [Grid.fill_array, ih]
        rfl

/-- `fillChannelsFrom` is the left fold of single `fill` calls over channels
`c, c+1, …` zipped with the per-channel weights. -/
theorem fillChannelsFrom_eq_foldl (o : ℕ) (ob : ℚ) (nt : List ℚ) :
    ∀ (cws : List ℚ) (g : Grid) (c : ℕ),
      fillChannelsFrom o ob nt g cws c =
        ((List.range' c cws.length).zip cws).foldl
          (fun gg p => gg.fill o ob p.1 nt p.2) g := by
  intro cws
  induction cws with
  | nil => intro g c; rfl
  | cons w ws ih =>
    intro g c
    rw [fillChannelsFrom, ih, List.length_cons, List.range'_succ]
    rfl

/-- `convolve` with empty selections and a passing descriptor check, written
as the explicit per-bin sum. -/
theorem convolve_reduce (g : Grid) (pdg_convs : List Conv)
    (xfxs : List (ℤ → ℚ → ℚ → ℚ)) (alphas : ℚ → ℚ)
    (hcheck : convTypeCheck pdg_convs g.convolutions 0 = none) :
    g.convolve pdg_convs xfxs alphas [] [] [] =
      .ok ((List.range g.bins).map (fun b =>
        ((g.entries.map (fun e =>
          if e.bin = b && (List.replicate g.orders.length true).getD e.order false &&
              (List.replicate g.channels.length true).getD e.channel false
          then g.entryValue xfxs alphas e else 0)).sum) / g.binNormalization b)) := by
  rw [Grid.convolve, hcheck]
  rfl

/-! ## Claim theorems -/

/-- With unit callbacks, the toy-scenario integrand of a stored cell reduces
to the cell's weight (channel coefficient 1, `alphas ≡ 1`). -/
theorem entryValue_toy (g : Grid)
    (hord : g.orders = [⟨0, 2, 0, 0, 0⟩])
    (hch : g.channels = [[⟨[22, 22], 1⟩]]) (ns : List ℕ) (w : ℚ) :
    g.entryValue [unitXfx, unitXfx] unitAlphas ⟨0, 0, 0, ns, w⟩ = w := by
  simp [Grid.entryValue, hch, hord, Grid.channelValue, Grid.channelTerm,
    unitXfx, unitAlphas, List.range_succ]

/-- Summing any integrand that returns a toy cell's weight over the cells
deposited by one fill gives the filled weight times the total combination
weight. -/
theorem comb_sum (l : List (List ℕ × ℚ)) (F : CellEntry → ℚ) (W : ℚ)
    (hF : ∀ ns w, F ⟨0, 0, 0, ns, w⟩ = w) :
    (l.map (F ∘ fun c => (⟨0, 0, 0, c.1, W * c.2⟩ : CellEntry))).sum =
      W * (l.map Prod.snd).sum := by
  induction l with
  | nil => simp
  | cons c cs ih =>
    simp only [List.map_cons, List.sum_cons, ih, Function.comp_apply, hF]
    ring

/-- Summing any integrand that vanishes on toy cells over the cells
deposited by one fill gives zero. -/
theorem comb_sum_zero (l : List (List ℕ × ℚ)) (F : CellEntry → ℚ) (W : ℚ)
    (hF : ∀ ns w, F ⟨0, 0, 0, ns, w⟩ = 0) :
    (l.map (F ∘ fun c => (⟨0, 0, 0, c.1, W * c.2⟩ : CellEntry))).sum = 0 := by
  induction l with
  | nil => simp
  | cons c cs ih =>
    simp only [List.map_cons, List.sum_cons, ih, Function.comp_apply, hF]
    simp

/-- Convolving a grid holding exactly the cells deposited by one
toy-scenario fill with unit callbacks returns `W` in bin 0 (of unit
normalization) and `0` in every other bin. -/
theorem convolve_toy_entries (g : Grid) (i0 i1 i2 : Interp) (cv1 cv2 : Conv)
    (fl : List ℚ) (W v0 v1 v2 : ℚ)
    (hord : g.orders = [⟨0, 2, 0, 0, 0⟩])
    (hch : g.channels = [[⟨[22, 22], 1⟩]])
    (hconvs : g.convolutions = [cv1, cv2])
    (hfl : g.fill_limits = fl)
    (hent : g.entries =
      (nodeCombos [i0.weights v0, i1.weights v1, i2.weights v2]).map
        (fun c => { order := 0, bin := 0, channel := 0, nodes := c.1,
                    weight := W * c.2 }))
    (h0 : i0.Valid) (h1 : i1.Valid) (h2 : i2.Valid)
    (hr0 : i0.inRange v0 = true) (hr1 : i1.inRange v1 = true)
    (hr2 : i2.inRange v2 = true)
    (hnorm : fl.getD 1 0 - fl.getD 0 0 = 1) :
    g.convolve [cv1, cv2] [unitXfx, unitXfx] unitAlphas [] [] [] =
      .ok ((List.range (fl.length - 1)).map fun b => if b = 0 then W else 0) := by
  rw [convolve_reduce _ _ _ _ (by rw [hconvs]; exact convTypeCheck_self _ 0)]
  have hbins : g.bins = fl.length - 1 := by rw [Grid.bins, hfl]
  rw [hbins]
  congr 1
  apply List.map_congr_left
  intro b _
  have hnormb : g.binNormalization b = fl.getD (b + 1) 0 - fl.getD b 0 := by
    rw [Grid.binNormalization, hfl]
  rw [hent, List.map_map, hnormb]
  by_cases hb0 : b = 0
  · subst hb0
    refine Eq.trans (congrArg₂ (· / ·)
      (comb_sum (nodeCombos [i0.weights v0, i1.weights v1, i2.weights v2])
        _ W ?_) rfl) ?_
    · intro ns w
      have hRepOrd :
          List.replicate ([(⟨0, 2, 0, 0, 0⟩ : Order)]).length true = [true] := rfl
      have hRepCh :
          List.replicate ([[(⟨[22, 22], 1⟩ : ChannelEntry)]]).length true = [true] := rfl
      simp [hord, hch, hRepOrd, hRepCh, entryValue_toy g hord hch]
    · rw [nodeCombos_snd_sum]
      simp only [List.map_cons, List.map_nil, List.prod_cons, List.prod_nil,
        sum_weights_eq_one i0 h0 v0 hr0, sum_weights_eq_one i1 h1 v1 hr1,
        sum_weights_eq_one i2 h2 v2 hr2, mul_one]
      rw [show (0 : ℕ) + 1 = 1 from rfl, hnorm, div_one]
      simp
  · have hne : ((0 : ℕ) = b) = False := eq_false (fun h => hb0 h.symm)
    refine Eq.trans (congrArg₂ (· / ·)
      (comb_sum_zero (nodeCombos [i0.weights v0, i1.weights v1, i2.weights v2])
        _ W ?_) rfl) ?_
    · intro ns w
      simp [hne]
    · simp [hb0]

/-- C1: a grid with exactly one order `(0, 2, 0, 0, 0)` (no α_s/α powers
beyond the fixed order contribute) and one single-entry channel
`[([22, 22], 1.0)]`, filled once with weight `W` at a point inside all
interpolation ranges and inside bin 0 (of unit normalization), convolved
with `xfx ≡ 1` and `alphas ≡ 1`, returns `W` for bin 0 and `0` for every
other bin. -/
theorem toy_scenario_convolve (g : Grid) (i0 i1 i2 : Interp) (cv1 cv2 : Conv)
    (fl : List ℚ) (W obs v0 v1 v2 : ℚ)
    (hord : g.orders = [⟨0, 2, 0, 0, 0⟩])
    (hch : g.channels = [[⟨[22, 22], 1⟩]])
    (hconvs : g.convolutions = [cv1, cv2])
    (hint : g.interps = [i0, i1, i2])
    (hfl : g.fill_limits = fl)
    (hent : g.entries = [])
    (h0 : i0.Valid) (h1 : i1.Valid) (h2 : i2.Valid)
    (hr0 : i0.inRange v0 = true) (hr1 : i1.inRange v1 = true)
    (hr2 : i2.inRange v2 = true)
    (hbin : binIndexFrom fl obs = some 0)
    (hnorm : fl.getD 1 0 - fl.getD 0 0 = 1) :
    (g.fill 0 obs 0 [v0, v1, v2] W).convolve [cv1, cv2] [unitXfx, unitXfx]
        unitAlphas [] [] [] =
      .ok ((List.range (fl.length - 1)).map fun b => if b = 0 then W else 0) := by
  have hfill : g.fill 0 obs 0 [v0, v1, v2] W =
      { g with entries :=
          ((nodeCombos [i0.weights v0, i1.weights v1, i2.weights v2]).map
            (fun c => { order := 0, bin := 0, channel := 0, nodes := c.1,
                        weight := W * c.2 })) } := by
    rw [Grid.fill, hfl, hbin, hint, hent]
    rfl
  rw [hfill]
  exact convolve_toy_entries _ i0 i1 i2 cv1 cv2 fl W v0 v1 v2 hord hch hconvs
    hfl rfl h0 h1 h2 hr0 hr1 hr2 hnorm

/-- C1 witness: the scenario on concrete axes, limits `[0, 1, 2]`,
`W = 7`, point `(obs, Q2, x1, x2) = (0, 1, 1, 1)`. -/
theorem toy_scenario_convolve_witness :
    ((toyGrid witInterp witInterp witInterp witConv witConv [0, 1, 2]).fill
        0 0 0 [1, 1, 1] 7).convolve [witConv, witConv] [unitXfx, unitXfx]
        unitAlphas [] [] [] =
      .ok ((List.range (([0, 1, 2] : List ℚ).length - 1)).map
        fun b => if b = 0 then 7 else 0) :=
  toy_scenario_convolve _ witInterp witInterp witInterp witConv witConv
    [0, 1, 2] 7 0 1 1 1 rfl rfl rfl rfl rfl rfl (by decide) (by decide)
    (by decide) (by decide) (by decide) (by decide) (by decide) (by simp)

/-- C2: for every grid and every fixed pair of PDF and alphas callbacks,
convolving the grid obtained by `read(write(g))` yields exactly the same
per-bin results as convolving `g` itself. -/
theorem read_write_convolve_eq (g g' : Grid)
    (hr : Grid.read (Grid.write g) = some g') (pdg_convs : List Conv)
    (xfxs : List (ℤ → ℚ → ℚ → ℚ)) (alphas : ℚ → ℚ) (om : List Bool)
    (bi : List ℕ) (cm : List Bool) :
    g'.convolve pdg_convs xfxs alphas om bi cm =
      g.convolve pdg_convs xfxs alphas om bi cm := by
  have h : some g' = some g := hr.symm.trans (read_write g)
  rw [Option.some.injEq] at h
  rw [h]

/-- C2 witness: the round trip on a concrete grid. -/
theorem read_write_convolve_eq_witness :
    Grid.read (Grid.write witGridDup) = some witGridDup ∧
    witGridDup.convolve [witConv, witConv] [unitXfx, unitXfx] unitAlphas [] [] [] =
      witGridDup.convolve [witConv, witConv] [unitXfx, unitXfx] unitAlphas [] [] [] :=
  ⟨by rfl, read_write_convolve_eq witGridDup witGridDup (by rfl)
    [witConv, witConv] [unitXfx, unitXfx] unitAlphas [] [] []⟩

/-- C3: for grids of identical layout with strictly sorted bin limits,
exactly consecutive bin limits merge into the concatenated bin count, while
a gap between the first grid's last limit and the second's first limit fails
with `NonConsecutiveBins` (no merged grid is produced, the first grid stays
as it was). -/
theorem merge_consecutive_or_gap (g o : Grid) (hlay : g.layoutEq o = true)
    (hgl : 2 ≤ g.fill_limits.length) (hgs : g.fill_limits.Pairwise (· < ·))
    (hol : 2 ≤ o.fill_limits.length) (hos : o.fill_limits.Pairwise (· < ·)) :
    (g.fill_limits.getLast? = o.fill_limits.head? →
      ∃ m, g.merge o = .ok m ∧ m.bins = g.bins + o.bins) ∧
    (∀ a b, g.fill_limits.getLast? = some a → o.fill_limits.head? = some b →
      a < b → g.merge o = .error .nonConsecutiveBins) := by
  obtain ⟨oa, ob, hoh, hog, holt⟩ := exists_head_lt_getLast o.fill_limits hos hol
  constructor
  · intro hcons
    have hne : g.fill_limits ≠ o.fill_limits := by
      intro he
      rw [he, hog, hoh, Option.some.injEq] at hcons
      exact absurd hcons (ne_of_gt holt)
    refine ⟨{ g with
        fill_limits := g.fill_limits ++ o.fill_limits.tail,
        entries := g.entries ++
          o.entries.map (fun e => { e with bin := e.bin + g.bins }) }, ?_, ?_⟩
    · rw [Grid.merge, if_pos hlay, if_neg hne, if_pos hcons]
    · show ((g.fill_limits ++ o.fill_limits.tail).length - 1 : ℕ) =
        (g.fill_limits.length - 1) + (o.fill_limits.length - 1)
      rw [List.length_append, List.length_tail]
      omega
  · intro a b hga hob hab
    have hne : g.fill_limits ≠ o.fill_limits := by
      intro he
      rw [he, hog, Option.some.injEq] at hga
      rw [hoh, Option.some.injEq] at hob
      rw [← hga, ← hob] at hab
      exact absurd holt (lt_asymm hab)
    have hne2 : g.fill_limits.getLast? ≠ o.fill_limits.head? := by
      rw [hga, hob, Ne, Option.some.injEq]
      exact ne_of_lt hab
    rw [Grid.merge, if_pos hlay, if_neg hne, if_neg hne2]

/-- C3 witness: `[1,2,3]` then `[3,4,5]` merges to 4 bins; `[1,2,3]` then
`[4,5,6]` fails with `NonConsecutiveBins`. -/
theorem merge_consecutive_or_gap_witness :
    (∃ m, witGridL.merge witGridR = .ok m ∧ m.bins = witGridL.bins + witGridR.bins) ∧
    witGridL.merge witGridG = .error .nonConsecutiveBins :=
  ⟨(merge_consecutive_or_gap witGridL witGridR (by decide) (by decide) (by decide)
      (by decide) (by decide)).1 (by decide),
   (merge_consecutive_or_gap witGridL witGridG (by decide) (by decide) (by decide)
      (by decide) (by decide)).2 3 4 (by decide) (by decide) (by decide)⟩

/-- C4: a fill whose point is outside all bins, or whose kinematic coordinate
lies outside an interpolation axis's `[min, max]` interval, raises no error
and contributes nothing: the grid is unchanged, and a grid that received only
such fills convolves to `0` in every bin. -/
theorem out_of_range_fill_noop (g : Grid) (o c : ℕ) (obs w : ℚ) (nt : List ℚ)
    (h : binIndexFrom g.fill_limits obs = none ∨
      ∃ p ∈ g.interps.zip nt, p.1.inRange p.2 = false) :
    g.fill o obs c nt w = g ∧
    (g.entries = [] → ∀ (pdg_convs : List Conv) (xfxs : List (ℤ → ℚ → ℚ → ℚ))
      (alphas : ℚ → ℚ) (om : List Bool) (bi : List ℕ) (cm : List Bool)
      (res : List ℚ),
      (g.fill o obs c nt w).convolve pdg_convs xfxs alphas om bi cm = .ok res →
      ∀ x ∈ res, x = 0) := by
  have h1 : g.fill o obs c nt w = g := by
    rcases h with hnone | ⟨p, hp, hfalse⟩
    · rw [Grid.fill, hnone]
    · cases hbin : binIndexFrom g.fill_limits obs with
      | none => rw [Grid.fill, hbin]
      | some b =>
        have haxes : nodeCombos ((g.interps.zip nt).map (fun p => p.1.weights p.2)) = [] :=
          nodeCombos_of_mem_nil _
            (List.mem_map.mpr ⟨p, hp, by rw [Interp.weights, hfalse]; rfl⟩)
        rw [Grid.fill, hbin]
        simp only [haxes, List.map_nil, List.append_nil]
  refine ⟨h1, ?_⟩
  intro hent pdg_convs xfxs alphas om bi cm res hconv x hx
  rw [h1] at hconv
  rw [Grid.convolve] at hconv
  revert hconv
  cases convTypeCheck pdg_convs g.convolutions 0 with
  | some i => intro hconv; simp at hconv
  | none =>
    intro hconv
    rw [Except.ok.injEq] at hconv
    rw [← hconv] at hx
    rcases List.mem_map.mp hx with ⟨b, -, hb⟩
    rw [← hb, hent]
    simp

/-- C4 witness: an observable outside the fill limits is silently dropped and
the untouched grid convolves to zero. -/
theorem out_of_range_fill_noop_witness :
    binIndexFrom witGrid.fill_limits 5 = none ∧
    witGrid.fill 0 5 0 [1, 1, 1] 7 = witGrid ∧
    ∀ x ∈ ([0, 0] : List ℚ), x = 0 :=
  ⟨by decide,
   (out_of_range_fill_noop witGrid 0 0 5 7 [1, 1, 1] (Or.inl (by decide))).1,
   (out_of_range_fill_noop witGrid 0 0 5 7 [1, 1, 1] (Or.inl (by decide))).2 rfl
     [witConv, witConv] [unitXfx, unitXfx] unitAlphas [] [] [] [0, 0]
     (by rw [(out_of_range_fill_noop witGrid 0 0 5 7 [1, 1, 1] (Or.inl (by decide))).1]
         rw [Grid.convolve]
         show Except.ok _ = _
         simp [witGrid, Grid.bins, List.range_succ])⟩

/-- C5: the bulk fill variants are semantically equivalent to the
corresponding sequences of single `fill` calls: they produce the identical
accumulated grid state (hence identical results from every subsequent
convolve). -/
theorem bulk_fill_eq_repeated_fill (g : Grid) (o c : ℕ) (obs : List ℚ)
    (nts : List (List ℚ)) (ws : List ℚ) (ob : ℚ) (nt : List ℚ) (cws : List ℚ) :
    g.fill_array o obs c nts ws =
      (obs.zip (nts.zip ws)).foldl (fun gg t => gg.fill o t.1 c t.2.1 t.2.2) g ∧
    g.fill_all_channels o ob nt cws =
      ((List.range' 0 cws.length).zip cws).foldl
        (fun gg p => gg.fill o ob p.1 nt p.2) g :=
  ⟨fill_array_eq_foldl o c obs g nts ws,
   fillChannelsFrom_eq_foldl o ob nt cws g 0⟩

/-- C6: for every interpolation axis spec and every coordinate `v` with
`min ≤ v ≤ max`, the Lagrange basis weights produced for `v` sum to one
(partition of unity), i.e. interpolating the constant function 1 reproduces 1
exactly. -/
theorem partition_of_unity (it : Interp) (hit : it.Valid) (v : ℚ)
    (h1 : it.min ≤ v) (h2 : v ≤ it.max) :
    ((it.weights v).map Prod.snd).sum = 1 :=
  sum_weights_eq_one it hit v (by rw [Interp.inRange]; simp [h1, h2])

/-- C6 witness: partition of unity on a concrete axis at `v = 1`. -/
theorem partition_of_unity_witness :
    witInterp.Valid ∧ witInterp.min ≤ 1 ∧ (1 : ℚ) ≤ witInterp.max ∧
    ((witInterp.weights 1).map Prod.snd).sum = 1 :=
  ⟨by decide, by decide, by decide,
   partition_of_unity witInterp (by decide) 1 (by decide) (by decide)⟩

/-- C7: a convolve call whose supplied convolution descriptors' polarized or
time-like flags differ from the grid's recorded convolution metadata at some
slot fails synchronously with a `ConvolutionTypeMismatch` error carrying a
slot index, rather than returning a numeric result. -/
theorem convolve_type_mismatch_fails (g : Grid) (pdg_convs : List Conv)
    (xfxs : List (ℤ → ℚ → ℚ → ℚ)) (alphas : ℚ → ℚ) (om : List Bool)
    (bi : List ℕ) (cm : List Bool) (d : Conv) (i : ℕ)
    (hi : i < pdg_convs.length) (hg : i < g.convolutions.length)
    (hne : (pdg_convs.getD i d).conv_type ≠ (g.convolutions.getD i d).conv_type) :
    ∃ j, g.convolve pdg_convs xfxs alphas om bi cm =
      .error (.convolutionTypeMismatch j) := by
  have h := convTypeCheck_isSome_of_mismatch d pdg_convs g.convolutions 0 i hi hg hne
  rcases Option.isSome_iff_exists.mp h with ⟨j, hj⟩
  exact ⟨j, by rw [Grid.convolve, hj]⟩

/-- C7 witness: passing a polarized descriptor for an unpolarized grid slot
fails with `ConvolutionTypeMismatch`. -/
theorem convolve_type_mismatch_fails_witness :
    (([witPolConv, witConv].getD 0 witConv).conv_type ≠
      (witGrid.convolutions.getD 0 witConv).conv_type) ∧
    ∃ j, witGrid.convolve [witPolConv, witConv] [unitXfx, unitXfx] unitAlphas
      [] [] [] = .error (.convolutionTypeMismatch j) :=
  ⟨by decide,
   convolve_type_mismatch_fails witGrid [witPolConv, witConv]
     [unitXfx, unitXfx] unitAlphas [] [] [] witConv 0 (by decide) (by decide)
     (by decide)⟩

/-- A successful ratio check certifies entrywise scaling. -/
theorem channelRatioCheck_scaled :
    ∀ (c1 c2 : Channel) (k : ℚ), channelRatioCheck c1 c2 k = true →
      ChannelScaled k c1 c2 := by
  intro c1
  induction c1 with
  | nil =>
    intro c2 k h
    cases c2 with
    | nil => exact List.Forall₂.nil
    | cons e r => simp [channelRatioCheck] at h
  | cons e1 r1 ih =>
    intro c2 k h
    cases c2 with
    | nil => simp [channelRatioCheck] at h
    | cons e2 r2 =>
      simp only [channelRatioCheck, Bool.and_eq_true, decide_eq_true_eq] at h
      exact List.Forall₂.cons ⟨h.1.1.symm, h.1.2⟩ (ih r2 k h.2)

/-- A duplicate factor certifies entrywise scaling. -/
theorem channelFactor_scaled (c1 c2 : Channel) (k : ℚ)
    (h : channelFactor c1 c2 = some k) : ChannelScaled k c1 c2 := by
  cases c1 with
  | nil => cases c2 <;> simp [channelFactor] at h
  | cons e1 r1 =>
    cases c2 with
    | nil => simp [channelFactor] at h
    | cons e2 r2 =>
      simp only [channelFactor] at h
      by_cases h0 : e1.coeff = 0
      · rw [if_pos h0] at h
        cases h
      · rw [if_neg h0] at h
        by_cases hck : channelRatioCheck (e1 :: r1) (e2 :: r2) (e2.coeff / e1.coeff) = true
        · rw [if_pos hck] at h
          cases h
          exact channelRatioCheck_scaled _ _ _ hck
        · rw [if_neg hck] at h
          cases h

/-- Every channel is itself scaled by the factor `1`. -/
theorem channelScaled_one (c : Channel) : ChannelScaled 1 c c := by
  induction c with
  | nil => exact List.Forall₂.nil
  | cons e r ih => exact List.Forall₂.cons ⟨rfl, (one_mul _).symm⟩ ih

/-- Scaled channels have proportional luminosity values. -/
theorem channelValue_scaled (g : Grid) (xfxs : List (ℤ → ℚ → ℚ → ℚ)) (q2 : ℚ)
    (nodes : List ℕ) {k : ℚ} {c1 c2 : Channel} (h : ChannelScaled k c1 c2) :
    g.channelValue xfxs q2 nodes c2 = k * g.channelValue xfxs q2 nodes c1 := by
  induction h with
  | nil => simp [Grid.channelValue]
  | @cons e1 e2 r1 r2 he ht ih =>
    simp only [Grid.channelValue, List.map_cons, List.sum_cons]
    simp only [Grid.channelValue] at ih
    rw [ih, Grid.channelTerm, Grid.channelTerm, he.1, he.2]
    ring

/-- What a successful duplicate search certifies. -/
theorem findDup_spec :
    ∀ (cs : List Channel) (ch : Channel) (p : ℕ × ℚ),
      findDup cs ch = some p →
      p.1 < cs.length ∧ channelFactor (cs.getD p.1 []) ch = some p.2 := by
  intro cs
  induction cs with
  | nil => intro ch p h; simp [findDup] at h
  | cons c rest ih =>
    intro ch p h
    rw [findDup] at h
    cases hcf : channelFactor c ch with
    | some k' =>
      rw [hcf] at h
      cases h
      exact ⟨Nat.succ_pos _, hcf⟩
    | none =>
      rw [hcf] at h
      cases hfd : findDup rest ch with
      | none => rw [hfd] at h; cases h
      | some q =>
        rw [hfd] at h
        simp only [Option.map_some', Option.some.injEq] at h
        obtain ⟨h1, h2⟩ := ih ch q hfd
        rw [← h]
        exact ⟨Nat.succ_lt_succ h1, by simpa using h2⟩

/-- An element of `replicate` read with a default. -/
theorem getD_replicate {α : Type} (x d : α) :
    ∀ (m n : ℕ), n < m → (List.replicate m x).getD n d = x := by
  intro m
  induction m with
  | zero => intro n h; exact absurd h (Nat.not_lt_zero n)
  | succ m ih =>
    intro n h
    cases n with
    | zero => rfl
    | succ n => exact ih n (Nat.lt_of_succ_lt_succ h)

/-- The deduplication pass only appends to the kept list, assigns every
processed channel a kept index in range, and relates the two by a scale
factor. -/
theorem dedupAssign_spec :
    ∀ (rest kept : List Channel),
      (∃ s, (dedupAssign kept rest).1 = kept ++ s) ∧
      (dedupAssign kept rest).2.length = rest.length ∧
      (∀ j, j < rest.length →
        ((dedupAssign kept rest).2.getD j (0, 1)).1 <
          (dedupAssign kept rest).1.length ∧
        ChannelScaled ((dedupAssign kept rest).2.getD j (0, 1)).2
          ((dedupAssign kept rest).1.getD
            ((dedupAssign kept rest).2.getD j (0, 1)).1 [])
          (rest.getD j [])) := by
  intro rest
  induction rest with
  | nil =>
    intro kept
    refine ⟨⟨[], (List.append_nil kept).symm⟩, rfl, ?_⟩
    intro j hj
    exact absurd hj (Nat.not_lt_zero j)
  | cons ch rest ih =>
    intro kept
    cases hfd : findDup kept ch with
    | some ik =>
      have hred : dedupAssign kept (ch :: rest) =
          ((dedupAssign kept rest).1, ik :: (dedupAssign kept rest).2) := by
        rw [dedupAssign, hfd]
      obtain ⟨⟨s, hs⟩, hlen, hinv⟩ := ih kept
      obtain ⟨hik1, hik2⟩ := findDup_spec kept ch ik hfd
      refine ⟨⟨s, by rw [hred]; exact hs⟩, by rw [hred]; simp [hlen], ?_⟩
      intro j hj
      cases j with
      | zero =>
        rw [hred]
        simp only [List.getD_cons_zero]
        constructor
        · exact Nat.lt_of_lt_of_le hik1 (by rw [hs]; simp)
        · have hg : (dedupAssign kept rest).1.getD ik.1 [] = kept.getD ik.1 [] := by
            rw [hs]
            exact List.getD_append _ _ _ _ hik1
          rw [hg]
          exact channelFactor_scaled _ _ _ hik2
      | succ j =>
        rw [hred]
        simp only [List.getD_cons_succ]
        exact hinv j (Nat.lt_of_succ_lt_succ hj)
    | none =>
      have hred : dedupAssign kept (ch :: rest) =
          ((dedupAssign (kept ++ [ch]) rest).1,
            (kept.length, 1) :: (dedupAssign (kept ++ [ch]) rest).2) := by
        rw [dedupAssign, hfd]
      obtain ⟨⟨s, hs⟩, hlen, hinv⟩ := ih (kept ++ [ch])
      refine ⟨⟨ch :: s, by rw [hred, hs, List.append_assoc, List.singleton_append]⟩,
        by rw [hred]; simp [hlen], ?_⟩
      intro j hj
      cases j with
      | zero =>
        rw [hred]
        simp only [List.getD_cons_zero]
        constructor
        · have hlen2 := congrArg List.length hs
          simp only [List.length_append, List.length_cons, List.length_nil] at hlen2
          omega
        · have hg : (dedupAssign (kept ++ [ch]) rest).1.getD kept.length [] = ch := by
            rw [hs]
            rw [List.getD_append _ _ _ _ (by simp)]
            rw [List.getD_append_right _ _ _ _ (Nat.le_refl _)]
            simp
          rw [hg]
          exact channelScaled_one ch
      | succ j =>
        rw [hred]
        simp only [List.getD_cons_succ]
        exact hinv j (Nat.lt_of_succ_lt_succ hj)

/-- A grid update that keeps the interpolation axes keeps the per-node
channel terms. -/
theorem channelTerm_update (g : Grid) (chs : List Channel) (es : List CellEntry) :
    Grid.channelTerm { g with channels := chs, entries := es } =
      Grid.channelTerm g := rfl

/-- C8: `dedup_channels` changes only the channel list: convolving the
deduplicated grid with any callbacks, any order mask, any bin selection and
the full channel selection returns exactly the per-bin results of the
original grid, for every tolerance. -/
theorem dedup_channels_convolve_invariant (g : Grid) (ulps : ℕ)
    (hent : ∀ e ∈ g.entries, e.channel < g.channels.length)
    (pdg_convs : List Conv) (xfxs : List (ℤ → ℚ → ℚ → ℚ)) (alphas : ℚ → ℚ)
    (om : List Bool) (bi : List ℕ) :
    (g.dedup_channels ulps).convolve pdg_convs xfxs alphas om bi [] =
      g.convolve pdg_convs xfxs alphas om bi [] := by
  obtain ⟨⟨s, hs⟩, hlen, hinv⟩ := dedupAssign_spec g.channels []
  simp only [Grid.dedup_channels, Grid.convolve]
  cases hc : convTypeCheck pdg_convs g.convolutions 0 with
  | some i => rfl
  | none =>
    simp only [List.isEmpty_nil, if_true]
    refine congrArg Except.ok ?_
    refine List.map_congr_left ?_
    intro b _
    refine congrArg₂ (· / ·) ?_ rfl
    rw [List.map_map]
    refine congrArg List.sum (List.map_congr_left ?_)
    intro e he
    have hch : e.channel < g.channels.length := hent e he
    have hj := hinv e.channel hch
    simp only [Function.comp_apply]
    have hrepL : (List.replicate (dedupAssign [] g.channels).1.length true).getD
        ((dedupAssign [] g.channels).2.getD e.channel (0, 1)).1 false = true :=
      getD_replicate _ _ _ _ hj.1
    have hrepR : (List.replicate g.channels.length true).getD e.channel false = true :=
      getD_replicate _ _ _ _ hch
    simp only [hrepL, hrepR, Bool.and_true]
    by_cases hcond : (decide (e.bin = b) &&
        (if om.isEmpty = true then List.replicate g.orders.length true
          else om).getD e.order false) = true
    · rw [if_pos hcond, if_pos hcond]
      have hcv := channelValue_scaled g xfxs
        ((g.interps.getD 0 ⟨0, 0, [], 0⟩).node_values.getD (e.nodes.getD 0 0) 0)
        e.nodes hj.2
      simp only [Grid.channelValue, Grid.channelTerm, Grid.nodeCoord] at hcv
      simp only [Grid.entryValue, Grid.channelValue, Grid.channelTerm,
        Grid.nodeCoord]
      rw [hcv, channelTerm_update]
      ring
    · rw [if_neg hcond, if_neg hcond]

/-- C8 witness: deduplicating a concrete grid with a duplicated channel
leaves its convolution unchanged. -/
theorem dedup_channels_convolve_invariant_witness :
    (∀ e ∈ witGridDup.entries, e.channel < witGridDup.channels.length) ∧
    (witGridDup.dedup_channels 2).convolve [witConv, witConv]
        [unitXfx, unitXfx] unitAlphas [] [] [] =
      witGridDup.convolve [witConv, witConv] [unitXfx, unitXfx] unitAlphas
        [] [] [] :=
  ⟨by decide,
   dedup_channels_convolve_invariant witGridDup 2 (by decide)
     [witConv, witConv] [unitXfx, unitXfx] unitAlphas [] []⟩

/-- C9: two grids of identical layout with identical bin-limit sequences
merge successfully; the merged grid keeps the original bin count and combines
the overlapping bins' contents. -/
theorem merge_identical_bins (g o : Grid) (hlay : g.layoutEq o = true)
    (heq : g.fill_limits = o.fill_limits) :
    g.merge o = .ok { g with entries := g.entries ++ o.entries } ∧
    ({ g with entries := g.entries ++ o.entries } : Grid).bins = g.bins := by
  constructor
  · rw [Grid.merge, if_pos hlay, if_pos heq]
  · rfl

/-- C9 witness: merging two concrete grids with equal bin limits. -/
theorem merge_identical_bins_witness :
    witGridL.merge witGridL =
      .ok { witGridL with entries := witGridL.entries ++ witGridL.entries } ∧
    ({ witGridL with entries := witGridL.entries ++ witGridL.entries } : Grid).bins =
      witGridL.bins :=
  merge_identical_bins witGridL witGridL (by decide) (by decide)

/-- C10: convolving with an empty order mask, empty bin-index list and empty
channel mask returns one value per bin of the grid and equals convolving with
every order, every bin index and every channel explicitly selected. -/
theorem convolve_empty_masks_select_all (g : Grid) (pdg_convs : List Conv)
    (xfxs : List (ℤ → ℚ → ℚ → ℚ)) (alphas : ℚ → ℚ) :
    g.convolve pdg_convs xfxs alphas [] [] [] =
      g.convolve pdg_convs xfxs alphas (List.replicate g.orders.length true)
        (List.range g.bins) (List.replicate g.channels.length true) ∧
    ∀ res, g.convolve pdg_convs xfxs alphas [] [] [] = .ok res →
      res.length = g.bins := by
  constructor
  · rw [Grid.convolve, Grid.convolve]
    cases convTypeCheck pdg_convs g.convolutions 0 with
    | some i => rfl
    | none => simp only [List.isEmpty_nil, if_true, ite_self]
  · intro res hres
    rw [Grid.convolve] at hres
    revert hres
    cases convTypeCheck pdg_convs g.convolutions 0 with
    | some i => intro hres; simp at hres
    | none =>
      intro hres
      rw [Except.ok.injEq] at hres
      rw [← hres]
      simp

/-- C10 witness: on a concrete two-bin grid the empty and the full selections
agree and the result has one value per bin. -/
theorem convolve_empty_masks_select_all_witness :
    (witGrid.convolve [witConv, witConv] [unitXfx, unitXfx] unitAlphas [] [] [] =
      witGrid.convolve [witConv, witConv] [unitXfx, unitXfx] unitAlphas
        (List.replicate witGrid.orders.length true) (List.range witGrid.bins)
        (List.replicate witGrid.channels.length true)) ∧
    ([0, 0] : List ℚ).length = witGrid.bins :=
  ⟨(convolve_empty_masks_select_all witGrid [witConv, witConv]
      [unitXfx, unitXfx] unitAlphas).1,
   (convolve_empty_masks_select_all witGrid [witConv, witConv]
      [unitXfx, unitXfx] unitAlphas).2 [0, 0]
     (by rw [Grid.convolve]
         show Except.ok _ = _
         simp [witGrid, Grid.bins, List.range_succ])⟩

end PineAPPL
